import Mathlib

/-!
Shallow embedding of the `mem8-lite` core: the wave-encoded key-value store
(`src/lite.rs`) and the Marine salience detector (`src/marine.rs`), together
with theorems settling the specification claims about them.

Modelling conventions:
* `f64` values in the store's codec are modelled as real numbers, since the
  codec uses transcendental functions (`cos`, `sin`, `sqrt`); `f64` values in
  the Marine detector are modelled as rational numbers (the detector uses only
  field operations, `abs`, `min`/`max`, `fract` and comparisons), keeping that
  model fully executable.
* Mutable state (`&mut self`) is passed and returned explicitly.
* External crates (`blake3`, `bincode`) are uninterpreted function parameters.
* Fallible operations return `Except`/`Option`; a Rust panic is `none`.
-/

namespace Mem8

/-- A byte (`u8`). -/
abbrev U8 := Fin 256

/-- A Blake3 signature, `[u8; 32]`. -/
abbrev Sig := {l : List U8 // l.length = 32}

/-- Model of `num_complex::Complex64`: a pair of `f64`s. -/
structure Complex64 where
  re : ℝ
  im : ℝ

/-- Rust `Complex64::from_polar(r, θ) = (r·cos θ, r·sin θ)`. -/
noncomputable def Complex64.from_polar (r θ : ℝ) : Complex64 :=
  ⟨r * Real.cos θ, r * Real.sin θ⟩

/-- Rust `Complex64::norm`: the magnitude `√(re² + im²)`. -/
noncomputable def Complex64.norm (c : Complex64) : ℝ :=
  Real.sqrt (c.re ^ 2 + c.im ^ 2)

/-- Model of `lite::WavePacket`: one stored unit. -/
structure WavePacket where
  signature : Sig
  waves : List Complex64
  metadata : Option (List U8)
  frequency : ℝ
  timestamp : ℕ

/-- Model of `lite::Mem8Lite`. The backing file is modelled as its byte contents;
the path is irrelevant to the claims and omitted. -/
structure Mem8Lite where
  frequency : ℝ
  cache : List (Sig × WavePacket)
  file : List U8
  position : ℕ

/-- Model of `HashMap::insert`: the new binding replaces any existing
binding for the same key. -/
def cacheInsert (k : Sig) (v : WavePacket) (c : List (Sig × WavePacket)) :
    List (Sig × WavePacket) :=
  (k, v) :: c.filter fun e => decide (e.1 ≠ k)

/-- Model of `HashMap::get`. -/
def cacheLookup (c : List (Sig × WavePacket)) (k : Sig) : Option WavePacket :=
  (c.find? fun e => decide (e.1 = k)).map Prod.snd

/-- Model of `Mem8Lite::encode_to_waves`: one wave point per byte; the magnitude is
`frequency * (byte / 255)` and the phase is `2π·i / len`. -/
noncomputable def encode_to_waves (frequency : ℝ) (data : List U8) : List Complex64 :=
  data.enum.map fun p =>
    Complex64.from_polar (frequency * ((p.2 : ℕ) / 255 : ℝ))
      (2 * Real.pi * p.1 / data.length)

/-- The Rust expression `x.round() as u8`: round half away from zero, then
saturating-cast to `u8`.  (Mathlib's `round` rounds half up; the two agree
except on negative half-integers, which both casts send to `0`.) -/
noncomputable def roundToByte (x : ℝ) : U8 :=
  ⟨min 255 (round x).toNat, by omega⟩

/-- Model of `Mem8Lite::decode_from_waves`: each byte is recovered as
`round(norm / frequency * 255) as u8`.  The Rust function always returns
`Ok`, so it is modelled as total. -/
noncomputable def decode_from_waves (frequency : ℝ) (waves : List Complex64) : List U8 :=
  waves.map fun wave => roundToByte (wave.norm / frequency * 255)

/-- Big-endian `u64` encoding (`byteorder::WriteBytesExt::write_u64::<BigEndian>`). -/
def u64be (n : ℕ) : List U8 :=
  [⟨n / 256 ^ 7 % 256, Nat.mod_lt _ (by norm_num)⟩,
   ⟨n / 256 ^ 6 % 256, Nat.mod_lt _ (by norm_num)⟩,
   ⟨n / 256 ^ 5 % 256, Nat.mod_lt _ (by norm_num)⟩,
   ⟨n / 256 ^ 4 % 256, Nat.mod_lt _ (by norm_num)⟩,
   ⟨n / 256 ^ 3 % 256, Nat.mod_lt _ (by norm_num)⟩,
   ⟨n / 256 ^ 2 % 256, Nat.mod_lt _ (by norm_num)⟩,
   ⟨n / 256 ^ 1 % 256, Nat.mod_lt _ (by norm_num)⟩,
   ⟨n % 256, Nat.mod_lt _ (by norm_num)⟩]

/-- Big-endian `u64` decoding (`byteorder::ReadBytesExt::read_u64::<BigEndian>`). -/
def readU64BE (l : List U8) : ℕ :=
  l.foldl (fun acc b => acc * 256 + (b : ℕ)) 0

/-- Model of `Mem8Lite::store`: encode the payload, hash payload bytes then metadata
bytes, build the packet, append the length-prefixed serialized packet to the
file, and insert the packet into the cache.  `blake3` models the external
Blake3 hash of the bytes fed to the `Hasher` (payload, then metadata if
present), `ser` models `bincode::serialize`, and `now` is the system-clock
timestamp. -/
noncomputable def store (blake3 : List U8 → Sig) (ser : WavePacket → List U8)
    (st : Mem8Lite) (data : List U8) (metadata : Option (List U8)) (now : ℕ) :
    Sig × Mem8Lite :=
  let waves := encode_to_waves st.frequency data
  let signature := blake3 (data ++ metadata.getD [])
  let packet : WavePacket :=
    { signature := signature, waves := waves, metadata := metadata,
      frequency := st.frequency, timestamp := now }
  let encoded := ser packet
  (signature,
    { st with
        file := st.file ++ u64be encoded.length ++ encoded
        position := st.position + 8 + encoded.length
        cache := cacheInsert signature packet st.cache })

/-- Model of `Mem8Lite::retrieve`: look the signature up in the cache and decode the
packet's waves with the store instance's *current* frequency; a signature
absent from the cache is an error (there is no fallback scan of the file). -/
noncomputable def retrieve (st : Mem8Lite) (signature : Sig) : Except Unit (List U8) :=
  match cacheLookup st.cache signature with
  | some packet => .ok (decode_from_waves st.frequency packet.waves)
  | none => .error ()

/-- Model of `Mem8Lite::get_metadata`: `cache.get(sig).and_then(|p| p.metadata)`. -/
def get_metadata (st : Mem8Lite) (signature : Sig) : Option (List U8) :=
  (cacheLookup st.cache signature).bind fun packet => packet.metadata

/-- The effect of replaying one complete record on the cache: a record that
deserializes is inserted under its own signature, one that fails to
deserialize is skipped (`if let Ok(packet) = bincode::deserialize(..)`). -/
def applyRecord (deser : List U8 → Option WavePacket)
    (cache : List (Sig × WavePacket)) (payload : List U8) :
    List (Sig × WavePacket) :=
  match deser payload with
  | some packet => cacheInsert packet.signature packet cache
  | none => cache

/-- Model of `Mem8Lite::load_cache`, the open-time replay loop over the file bytes.
`deser` models `bincode::deserialize::<WavePacket>`.
* Fewer than 8 bytes remaining: `read_u64` fails and the loop breaks
  (treated as end of stream).
* A complete 8-byte length header announcing more bytes than remain:
  `read_exact(&mut buffer)?` fails and the `?` propagates the I/O error out
  of `load_cache` (the open fails).
* A complete record is deserialized and inserted, or silently skipped if
  deserialization fails. -/
def load_cache (deser : List U8 → Option WavePacket)
    (bytes : List U8) (cache : List (Sig × WavePacket)) :
    Except Unit (List (Sig × WavePacket)) :=
  if h : bytes.length < 8 then .ok cache
  else
    let len := readU64BE (bytes.take 8)
    let rest := bytes.drop 8
    if rest.length < len then .error ()
    else load_cache deser (rest.drop len) (applyRecord deser cache (rest.take len))
termination_by bytes.length
decreasing_by simp [List.length_drop]; omega

/-- The on-disk encoding of one log record: 8-byte big-endian length prefix,
then the serialized packet bytes (`Mem8Lite::persist_packet`). -/
def encRecord (payload : List U8) : List U8 :=
  u64be payload.length ++ payload

end Mem8

namespace Marine

/-- Model of `marine::PeakInfo`. -/
structure PeakInfo where
  index : ℕ
  amplitude : ℚ
  interval : ℚ
  timing_jitter : ℚ
  amplitude_jitter : ℚ
  salience : ℚ
  has_wonder : Bool
deriving DecidableEq

/-- Model of `marine::SalienceWeights`. -/
structure SalienceWeights where
  energy : ℚ
  jitter : ℚ
  harmonic : ℚ
  wonder : ℚ
deriving DecidableEq

/-- Model of `SalienceWeights::default()`. -/
def SalienceWeights.standard : SalienceWeights :=
  { energy := 2/5, jitter := 3/10, harmonic := 1/5, wonder := 1/10 }

/-- Model of `marine::MarineProcessor`.  Each `ExponentialMovingAverage` is its
smoothing factor together with its current value. -/
structure MarineProcessor where
  clip_threshold : ℚ
  grid_tick_rate : ℚ
  timing_alpha : ℚ
  timing_value : ℚ
  amplitude_alpha : ℚ
  amplitude_value : ℚ
  recent_peaks : List PeakInfo
  weights : SalienceWeights
  wonder_threshold : ℚ
deriving DecidableEq

/-- Model of `MarineProcessor::new()`. -/
def MarineProcessor.new : MarineProcessor :=
  { clip_threshold := 1/10
    grid_tick_rate := 100
    timing_alpha := 1/8
    timing_value := 0
    amplitude_alpha := 1/8
    amplitude_value := 0
    recent_peaks := []
    weights := SalienceWeights.standard
    wonder_threshold := 4/5 }

/-- Rust `f64::fract`: `x - x.trunc()`, truncation toward zero. -/
def fract (x : ℚ) : ℚ :=
  x - if 0 ≤ x then (⌊x⌋ : ℚ) else (⌈x⌉ : ℚ)

/-- Model of `MarineProcessor::calculate_harmonic_alignment`. -/
def calculate_harmonic_alignment (m : MarineProcessor) (interval : ℚ) : ℚ :=
  let harmonics : List ℚ := [1, 2, 3/2, 1333/1000, 5/4, 1618/1000]
  harmonics.foldl
    (fun best_score h =>
      let ratio := interval / m.grid_tick_rate
      let distance := fract (ratio / h)
      let score := 1 - min distance (1 - distance)
      max best_score score) 0

/-- Model of `MarineProcessor::calculate_wonder_factor`. -/
def calculate_wonder_factor (m : MarineProcessor) (energy jitter_score : ℚ) : ℚ :=
  let power_wonder := energy * jitter_score
  let golden_wonder :=
    if 3 ≤ m.recent_peaks.length then
      let intervals := m.recent_peaks.map PeakInfo.interval
      let golden_score : ℚ := (intervals.zip intervals.tail).foldl
        (fun acc pr =>
          if |pr.2 / pr.1 - 1618/1000| < 1/10 then acc + 1 else acc) 0
      golden_score / (intervals.length : ℚ)
    else 0
  power_wonder + golden_wonder * (1/2)

/-- Model of `MarineProcessor::calculate_salience`. -/
def calculate_salience (m : MarineProcessor)
    (energy timing_jitter amplitude_jitter harmonic : ℚ) : ℚ :=
  let jitter_score := 1 / (1 + timing_jitter + amplitude_jitter)
  let wonder := calculate_wonder_factor m energy jitter_score
  m.weights.energy * energy + m.weights.jitter * jitter_score +
    m.weights.harmonic * harmonic + m.weights.wonder * wonder

/-- The mutable state threaded through the `process_samples` loop: the
processor itself (`&mut self`), `last_peak_index`, and the `peaks`
accumulator. -/
structure ScanState where
  proc : MarineProcessor
  last_peak_index : ℕ
  peaks : List PeakInfo
deriving DecidableEq

/-- The body of the `process_samples` loop once a peak at index `i` with
gated value `xi` has been detected: update both EMAs (`&mut self`), compute
jitters, harmonic alignment and salience, and build the `PeakInfo`.  Returns
the peak together with the EMA-updated processor. -/
def makePeak (m : MarineProcessor) (last i : ℕ) (xi : ℚ) : PeakInfo × MarineProcessor :=
  let interval : ℚ := ((i - last : ℕ) : ℚ)
  let expected_timing :=
    m.timing_alpha * interval + (1 - m.timing_alpha) * m.timing_value
  let expected_amplitude :=
    m.amplitude_alpha * |xi| + (1 - m.amplitude_alpha) * m.amplitude_value
  let proc1 :=
    { m with timing_value := expected_timing, amplitude_value := expected_amplitude }
  let timing_jitter := |interval - expected_timing|
  let amplitude_jitter := |(|xi|) - expected_amplitude|
  let harmonic_score := calculate_harmonic_alignment proc1 interval
  let salience := calculate_salience proc1 (|xi|) timing_jitter amplitude_jitter harmonic_score
  ({ index := i, amplitude := xi, interval := interval,
     timing_jitter := timing_jitter, amplitude_jitter := amplitude_jitter,
     salience := salience,
     has_wonder := decide (proc1.wonder_threshold < salience) }, proc1)

/-- One iteration of the `process_samples` peak-detection loop at index `i`
of the gated signal: test `x(n-1) < x(n) > x(n+1)` (and nonzero after
gating); on a hit, build the peak, push it onto the bounded recent-peak
buffer (dropping the oldest past 32 entries), and record it. -/
def scanStep (gated : List ℚ) (s : ScanState) (i : ℕ) : ScanState :=
  let xm := gated.getD (i - 1) 0
  let xi := gated.getD i 0
  let xp := gated.getD (i + 1) 0
  if xm < xi ∧ xp < xi ∧ xi ≠ 0 then
    let pk := makePeak s.proc s.last_peak_index i xi
    let pushed := pk.2.recent_peaks ++ [pk.1]
    let recent := if 32 < pushed.length then pushed.tail else pushed
    { proc := { pk.2 with recent_peaks := recent },
      last_peak_index := i,
      peaks := s.peaks ++ [pk.1] }
  else s

/-- Model of `MarineProcessor::process_samples`.  The Rust loop header
`for i in 1..gated.len()-1` evaluates `gated.len()-1` in `usize`; on an empty
input this underflows (a panic in debug builds, and in release builds the
wrapped bound makes the first iteration index `gated[0]` out of bounds, also
a panic).  The panic is modelled as `none`.  For nonempty input the loop runs
over the interior indices `1, …, len-2`. -/
def process_samples (m : MarineProcessor) (samples : List ℚ) : Option ScanState :=
  let gated := samples.map fun s => if |s| < m.clip_threshold then 0 else s
  if samples.length = 0 then none
  else some ((List.range' 1 (samples.length - 2)).foldl (scanStep gated) ⟨m, 0, []⟩)

/-- Model of `marine::MarineMetadata`. -/
structure MarineMetadata where
  total_peaks : ℕ
  wonder_count : ℕ
  average_salience : ℚ
  max_salience : ℚ
  has_rhythm : Bool
  emotional_signature : String
deriving DecidableEq

/-- The inter-peak index deltas of `detect_rhythm`:
`peaks.windows(2).map(|w| w[1].index as f64 - w[0].index as f64)`. -/
def interPeakDeltas (peaks : List PeakInfo) : List ℚ :=
  (peaks.zip peaks.tail).map fun pr => (pr.2.index : ℚ) - (pr.1.index : ℚ)

/-- The mean as computed inside `detect_rhythm`. -/
def listMean (l : List ℚ) : ℚ := l.sum / (l.length : ℚ)

/-- The (population) variance as computed inside `detect_rhythm`. -/
def listVariance (l : List ℚ) : ℚ :=
  ((l.map fun x => (x - listMean l) ^ 2).sum) / (l.length : ℚ)

/-- Model of `MarineProcessor::detect_rhythm`. -/
def detect_rhythm (_m : MarineProcessor) (peaks : List PeakInfo) : Bool :=
  if peaks.length < 4 then false
  else
    let intervals := interPeakDeltas peaks
    let mean := listMean intervals
    let variance := listVariance intervals
    decide (variance < (mean * (1/5)) ^ 2)

/-- Model of `MarineProcessor::detect_emotion`. -/
def detect_emotion (_m : MarineProcessor) (peaks : List PeakInfo) : String :=
  let avg_amplitude :=
    (peaks.map fun p => |p.amplitude|).sum / ((max peaks.length 1 : ℕ) : ℚ)
  let wonder_ratio :=
    ((peaks.filter fun p => p.has_wonder).length : ℚ) / ((max peaks.length 1 : ℕ) : ℚ)
  if 1/2 < wonder_ratio then "✨ Wondrous"
  else if 4/5 < avg_amplitude then "🔥 Energetic"
  else if avg_amplitude < 1/5 then "😌 Peaceful"
  else if 3/10 < wonder_ratio then "🎵 Musical"
  else "🌊 Flowing"

/-- Model of `MarineProcessor::extract_metadata`. -/
def extract_metadata (m : MarineProcessor) (peaks : List PeakInfo) : MarineMetadata :=
  let wonder_peaks := peaks.filter fun p => p.has_wonder
  { total_peaks := peaks.length
    wonder_count := wonder_peaks.length
    average_salience :=
      (peaks.map PeakInfo.salience).sum / ((max peaks.length 1 : ℕ) : ℚ)
    max_salience := (peaks.map PeakInfo.salience).foldl max 0
    has_rhythm := detect_rhythm m peaks
    emotional_signature := detect_emotion m peaks }

/-- Replace a peak's wonder flag by the one threshold `t` would assign.
Used to relate runs of `process_samples` that differ only in
`wonder_threshold`. -/
def reflag (t : ℚ) (p : PeakInfo) : PeakInfo :=
  { p with has_wonder := decide (t < p.salience) }

/-- Transport a processor state along a change of `wonder_threshold` to `t`:
the threshold is replaced and every remembered peak's wonder flag is the one
`t` assigns. -/
def adjustProc (t : ℚ) (m : MarineProcessor) : MarineProcessor :=
  { m with wonder_threshold := t, recent_peaks := m.recent_peaks.map (reflag t) }

end Marine

namespace Mem8

/-- A concrete 32-byte signature, for concrete instantiations. -/
def sigZero : Sig := ⟨List.replicate 32 0, by simp⟩

/-- A concrete packet with no wave points and no metadata. -/
def packetEmpty : WavePacket :=
  { signature := sigZero, waves := [], metadata := none, frequency := 1, timestamp := 0 }

/-- A concrete store instance whose cache holds exactly `packetEmpty`. -/
def stEmpty : Mem8Lite :=
  { frequency := 1, cache := [(sigZero, packetEmpty)], file := [], position := 0 }

/-- The single byte `255` wave-encoded at frequency 1, recorded (as the code
does) with `frequency = 1` inside the packet. -/
noncomputable def packetFreq1 : WavePacket :=
  { signature := sigZero, waves := encode_to_waves 1 [255], metadata := none,
    frequency := 1, timestamp := 0 }

/-- A store instance opened with frequency 2 whose cache holds the
frequency-1 packet `packetFreq1` (as after replaying a log written at
frequency 1). -/
noncomputable def stFreq2 : Mem8Lite :=
  { frequency := 2, cache := [(sigZero, packetFreq1)], file := [], position := 0 }

end Mem8

namespace Mem8

theorem u64be_length (n : ℕ) : (u64be n).length = 8 := rfl

theorem readU64_u64be (n : ℕ) (h : n < 2 ^ 64) : readU64BE (u64be n) = n := by
  simp only [u64be, readU64BE, List.foldl_cons, List.foldl_nil]
  norm_num
  omega

/-- Unfolding `load_cache` when fewer than 8 bytes remain: the header read
fails and the loop breaks with the cache accumulated so far. -/
theorem load_cache_short (deser : List U8 → Option WavePacket) (bytes : List U8)
    (cache : List (Sig × WavePacket)) (h : bytes.length < 8) :
    load_cache deser bytes cache = .ok cache := by
  rw [load_cache]
  simp [h]

/-- Unfolding `load_cache` when a full header announces more bytes than
remain: `read_exact` fails and the error propagates. -/
theorem load_cache_truncated (deser : List U8 → Option WavePacket) (bytes : List U8)
    (cache : List (Sig × WavePacket)) (h : ¬ bytes.length < 8)
    (h2 : (bytes.drop 8).length < readU64BE (bytes.take 8)) :
    load_cache deser bytes cache = .error () := by
  rw [load_cache]
  simp [h]
  intro hle
  simp only [List.length_drop] at h2
  omega

/-- Unfolding `load_cache` across one complete record. -/
theorem load_cache_record (deser : List U8 → Option WavePacket) (p rest : List U8)
    (cache : List (Sig × WavePacket)) (hp : p.length < 2 ^ 64) :
    load_cache deser (encRecord p ++ rest) cache
      = load_cache deser rest (applyRecord deser cache p) := by
  have hlen : (encRecord p ++ rest).length = 8 + p.length + rest.length := by
    simp [encRecord, u64be_length]
    omega
  have htake : (encRecord p ++ rest).take 8 = u64be p.length := by
    rw [encRecord, List.append_assoc]
    exact List.take_left' (u64be_length p.length)
  have hdrop : (encRecord p ++ rest).drop 8 = p ++ rest := by
    rw [encRecord, List.append_assoc]
    exact List.drop_left' (u64be_length p.length)
  conv_lhs => rw [load_cache]
  rw [dif_neg (by omega)]
  simp only [htake, hdrop, readU64_u64be p.length hp]
  rw [if_neg (by simp), List.take_left, List.drop_left]

/-- Replaying a log that is a sequence of complete records followed by a
tail of fewer than 8 bytes succeeds, folding each record into the cache. -/
theorem load_cache_records (deser : List U8 → Option WavePacket)
    (recs : List (List U8)) (tail : List U8) (cache : List (Sig × WavePacket))
    (hrecs : ∀ p ∈ recs, p.length < 2 ^ 64) (htail : tail.length < 8) :
    load_cache deser ((recs.map encRecord).flatten ++ tail) cache
      = .ok (recs.foldl (applyRecord deser) cache) := by
  induction recs generalizing cache with
  | nil => simpa using load_cache_short deser tail cache htail
  | cons p ps ih =>
    have hp : p.length < 2 ^ 64 := hrecs p (by simp)
    simp only [List.map_cons, List.flatten_cons, List.append_assoc, List.foldl_cons]
    rw [load_cache_record deser p _ cache hp]
    exact ih _ (fun q hq => hrecs q (List.mem_cons_of_mem _ hq))

/-- Replaying a log that is a sequence of complete records followed by a
complete 8-byte header and a short payload fails with an error. -/
theorem load_cache_records_err (deser : List U8 → Option WavePacket)
    (recs : List (List U8)) (hdr : ℕ) (payload : List U8)
    (cache : List (Sig × WavePacket))
    (hrecs : ∀ p ∈ recs, p.length < 2 ^ 64) (hhdr : hdr < 2 ^ 64)
    (hshort : payload.length < hdr) :
    load_cache deser ((recs.map encRecord).flatten ++ (u64be hdr ++ payload)) cache
      = .error () := by
  induction recs generalizing cache with
  | nil =>
    simp only [List.map_nil, List.flatten_nil, List.nil_append]
    apply load_cache_truncated
    · simp only [List.length_append, u64be_length]
      omega
    · rw [List.take_left' (u64be_length hdr), List.drop_left' (u64be_length hdr),
        readU64_u64be hdr hhdr]
      exact hshort
  | cons p ps ih =>
    have hp : p.length < 2 ^ 64 := hrecs p (by simp)
    simp only [List.map_cons, List.flatten_cons, List.append_assoc]
    rw [load_cache_record deser p _ cache hp]
    exact ih _ (fun q hq => hrecs q (List.mem_cons_of_mem _ hq))

/-- Claim C2 counterexample: a log holding a complete 8-byte length header
that announces 5 payload bytes followed by only 2 bytes makes `load_cache` —
and hence the open — fail with an error, instead of treating the truncated
trailing record as end-of-stream as the claim states. -/
theorem claim2_counterexample :
    load_cache (fun _ => none) (u64be 5 ++ [1, 2]) [] = .error () := by
  simpa using load_cache_records_err (fun _ => none) [] 5 [1, 2] []
    (by simp) (by norm_num) (by decide)

/-- Claim C2 (amended): during open-time replay, a truncated length *header*
— fewer than 8 bytes remaining after the complete records — is treated as
end-of-stream: replay stops cleanly, the load succeeds, and all complete
preceding records have been folded into the index.  A complete 8-byte header
whose announced payload is truncated, however, makes the load fail with an
error rather than being ignored. -/
theorem claim2_amended_truncation_behavior
    (deser : List U8 → Option WavePacket) (recs : List (List U8))
    (cache : List (Sig × WavePacket)) (hrecs : ∀ p ∈ recs, p.length < 2 ^ 64) :
    (∀ tail : List U8, tail.length < 8 →
      load_cache deser ((recs.map encRecord).flatten ++ tail) cache
        = .ok (recs.foldl (applyRecord deser) cache)) ∧
    (∀ (hdr : ℕ) (payload : List U8), hdr < 2 ^ 64 → payload.length < hdr →
      load_cache deser ((recs.map encRecord).flatten ++ (u64be hdr ++ payload)) cache
        = .error ()) :=
  ⟨fun tail htail => load_cache_records deser recs tail cache hrecs htail,
   fun hdr payload hhdr hshort =>
     load_cache_records_err deser recs hdr payload cache hrecs hhdr hshort⟩

/-- Witness for the amended claim C2, at a one-record log with a 1-byte
partial tail (header truncated: open succeeds and the record is replayed)
and at the same record followed by a header announcing 5 bytes with a 1-byte
payload (payload truncated: open fails). -/
theorem claim2_amended_witness :
    (∀ p ∈ ([[3]] : List (List U8)), p.length < 2 ^ 64) ∧
    load_cache (fun _ => none) ((([[3]] : List (List U8)).map encRecord).flatten ++ [7]) []
      = .ok (([[3]] : List (List U8)).foldl (applyRecord fun _ => none) []) ∧
    load_cache (fun _ => none)
        ((([[3]] : List (List U8)).map encRecord).flatten ++ (u64be 5 ++ [1])) []
      = .error () :=
  ⟨by decide,
   (claim2_amended_truncation_behavior (fun _ => none) [[3]] [] (by decide)).1 [7] (by decide),
   (claim2_amended_truncation_behavior (fun _ => none) [[3]] [] (by decide)).2 5 [1]
     (by norm_num) (by decide)⟩

/-- Claim C5: during replay, a record whose length-delimited payload is
complete but fails to deserialize is skipped, and loading continues with the
subsequent bytes exactly as if the record were absent; the load as a whole
does not abort because of such a record. -/
theorem claim5_corrupt_record_skipped (deser : List U8 → Option WavePacket)
    (p rest : List U8) (cache : List (Sig × WavePacket))
    (hp : p.length < 2 ^ 64) (hbad : deser p = none) :
    load_cache deser (encRecord p ++ rest) cache = load_cache deser rest cache := by
  rw [load_cache_record deser p rest cache hp]
  simp [applyRecord, hbad]

/-- Witness for claim C5 at a concrete corrupt record. -/
theorem claim5_witness :
    ((fun _ => (none : Option WavePacket)) [(42 : U8)] = none) ∧
    ([(42 : U8)].length < 2 ^ 64) ∧
    load_cache (fun _ => none) (encRecord [42] ++ [9]) []
      = load_cache (fun _ => none) [9] [] :=
  ⟨rfl, by decide, claim5_corrupt_record_skipped (fun _ => none) [42] [9] [] (by decide) rfl⟩

theorem filter_not_key (k : Sig) (c : List (Sig × WavePacket)) :
    ((c.filter fun e => decide (e.1 ≠ k)).filter fun e => decide (e.1 = k)) = [] := by
  induction c with
  | nil => rfl
  | cons a c ih => by_cases h : a.1 = k <;> simp [List.filter_cons, h, ih]

/-- Filtering the cache for the key just inserted returns exactly the new
binding: `cacheInsert` replaces. -/
theorem filter_cacheInsert_key (k : Sig) (v : WavePacket) (c : List (Sig × WavePacket)) :
    ((cacheInsert k v c).filter fun e => decide (e.1 = k)) = [(k, v)] := by
  simp [cacheInsert, List.filter_cons, filter_not_key]

theorem cacheLookup_insert_self (k : Sig) (v : WavePacket) (c : List (Sig × WavePacket)) :
    cacheLookup (cacheInsert k v c) k = some v := by
  simp [cacheLookup, cacheInsert, List.find?_cons_of_pos]

/-- Claim C4: storing the same `(bytes, metadata)` twice in one open store
yields the same signature both times — the Blake3 hash over the pre-encoding
payload bytes then the metadata bytes — and after the second store the cache
holds exactly one entry for that signature, namely the second packet, which
carries the later timestamp. -/
theorem claim4_store_twice (blake3 : List U8 → Sig) (ser : WavePacket → List U8)
    (st : Mem8Lite) (data : List U8) (metadata : Option (List U8)) (ts1 ts2 : ℕ) :
    (store blake3 ser st data metadata ts1).1
        = (store blake3 ser (store blake3 ser st data metadata ts1).2 data metadata ts2).1 ∧
    (store blake3 ser st data metadata ts1).1 = blake3 (data ++ metadata.getD []) ∧
    ((store blake3 ser (store blake3 ser st data metadata ts1).2 data metadata ts2).2.cache.filter
        fun e => decide (e.1 = (store blake3 ser st data metadata ts1).1)).length = 1 ∧
    cacheLookup
        (store blake3 ser (store blake3 ser st data metadata ts1).2 data metadata ts2).2.cache
        (store blake3 ser st data metadata ts1).1
      = some { signature := blake3 (data ++ metadata.getD []),
               waves := encode_to_waves st.frequency data,
               metadata := metadata, frequency := st.frequency, timestamp := ts2 } := by
  refine ⟨rfl, rfl, ?_, ?_⟩
  · rw [show (store blake3 ser (store blake3 ser st data metadata ts1).2 data metadata ts2).2.cache
        = cacheInsert (blake3 (data ++ metadata.getD []))
            { signature := blake3 (data ++ metadata.getD []),
              waves := encode_to_waves st.frequency data,
              metadata := metadata, frequency := st.frequency, timestamp := ts2 }
            (store blake3 ser st data metadata ts1).2.cache from rfl]
    rw [show (store blake3 ser st data metadata ts1).1 = blake3 (data ++ metadata.getD []) from rfl]
    rw [filter_cacheInsert_key]
    rfl
  · exact cacheLookup_insert_self _ _ _

/-- Claim C6: `retrieve` returns an error exactly when the signature is
absent from the in-memory cache; for a cached signature it returns the
decoded bytes of that packet; and the result never depends on the log file
contents — there is no fallback disk scan. -/
theorem claim6_retrieve_cache_only (st : Mem8Lite) (sig : Sig) :
    (retrieve st sig = .error () ↔ cacheLookup st.cache sig = none) ∧
    (∀ packet, cacheLookup st.cache sig = some packet →
      retrieve st sig = .ok (decode_from_waves st.frequency packet.waves)) ∧
    (∀ (file' : List U8) (position' : ℕ),
      retrieve { st with file := file', position := position' } sig = retrieve st sig) := by
  refine ⟨?_, ?_, fun _ _ => rfl⟩
  · cases h : cacheLookup st.cache sig <;> simp [retrieve, h]
  · intro packet hp
    simp [retrieve, hp]

/-- Witness for claim C6 at a concrete store holding one packet. -/
theorem claim6_witness :
    cacheLookup stEmpty.cache sigZero = some packetEmpty ∧
    retrieve stEmpty sigZero = .ok (decode_from_waves stEmpty.frequency packetEmpty.waves) :=
  ⟨rfl, (claim6_retrieve_cache_only stEmpty sigZero).2.1 packetEmpty rfl⟩

/-- Claim C10: `get_metadata` never fails (it is total, returning an
`Option`); it returns `none` exactly when the signature is uncached or the
cached packet was stored without metadata — two indistinguishable cases —
and `some m` exactly when the cached packet carries metadata `m`. -/
theorem claim10_get_metadata (st : Mem8Lite) (sig : Sig) :
    (get_metadata st sig = none ↔
      cacheLookup st.cache sig = none ∨
        ∃ packet, cacheLookup st.cache sig = some packet ∧ packet.metadata = none) ∧
    (∀ m, get_metadata st sig = some m ↔
      ∃ packet, cacheLookup st.cache sig = some packet ∧ packet.metadata = some m) := by
  cases h : cacheLookup st.cache sig with
  | none => simp [get_metadata, h]
  | some packet => cases hm : packet.metadata <;> simp [get_metadata, h, hm]

/-- The magnitude of a polar-constructed wave point is the absolute value of
its radius: the phase carries no magnitude information. -/
theorem norm_from_polar (r θ : ℝ) : (Complex64.from_polar r θ).norm = |r| := by
  simp only [Complex64.from_polar, Complex64.norm]
  rw [mul_pow, mul_pow, ← mul_add, Real.cos_sq_add_sin_sq, mul_one, Real.sqrt_sq_eq_abs]

/-- Casting a byte value through `round` and the saturating `u8` cast is the
identity. -/
theorem roundToByte_byte (b : U8) : roundToByte ((b : ℕ) : ℝ) = b := by
  simp only [roundToByte, round_natCast, Int.toNat_natCast]
  exact Fin.ext (by simp [Nat.lt_succ_iff.mp b.isLt])

/-- The byte↔wave round trip: decoding at the encoding frequency recovers
every byte exactly, for any positive frequency. -/
theorem decode_encode (freq : ℝ) (hfreq : 0 < freq) (data : List U8) :
    decode_from_waves freq (encode_to_waves freq data) = data := by
  unfold decode_from_waves encode_to_waves
  rw [List.map_map]
  have key : ∀ p ∈ data.enum,
      ((fun wave => roundToByte (wave.norm / freq * 255)) ∘ fun p =>
          Complex64.from_polar (freq * ((p.2 : ℕ) / 255 : ℝ))
            (2 * Real.pi * p.1 / data.length)) p
        = Prod.snd p := by
    intro p _
    simp only [Function.comp_apply, norm_from_polar]
    rw [abs_of_nonneg (by positivity)]
    rw [show freq * ((p.2 : ℕ) / 255 : ℝ) / freq * 255 = ((p.2 : ℕ) : ℝ) by
      field_simp
      ring]
    exact roundToByte_byte p.2
  rw [List.map_congr_left key, List.enum_map_snd]

/-- Claim C1: for every byte sequence and every positive encoding base,
decoding the encoded wave points recovers the bytes exactly, byte for byte
(all byte values 0..255 are covered since bytes range over `Fin 256`); the
round trip on the empty sequence is a no-op. -/
theorem claim1_roundtrip (base : ℝ) (data : List U8) (hbase : 0 < base) :
    decode_from_waves base (encode_to_waves base data) = data ∧
    encode_to_waves base [] = [] ∧ decode_from_waves base [] = [] :=
  ⟨decode_encode base hbase data, rfl, rfl⟩

/-- Witness for claim C1 at base 1 and a three-byte payload covering the
extreme byte values. -/
theorem claim1_witness :
    (0 : ℝ) < 1 ∧
    decode_from_waves 1 (encode_to_waves 1 [0, 100, 255]) = [0, 100, 255] :=
  ⟨one_pos, (claim1_roundtrip 1 [0, 100, 255] one_pos).1⟩

/-- Decoding the frequency-1 encoding of `[255]` with frequency 2 yields
`[128]`: `round(1 / 2 * 255) = round(127.5) = 128`. -/
theorem decode_freq2_of_encode_freq1 :
    decode_from_waves 2 (encode_to_waves 1 [255]) = [128] := by
  unfold decode_from_waves encode_to_waves
  rw [List.map_map]
  have henum : ([255] : List U8).enum = [(0, (255 : U8))] := rfl
  rw [henum]
  simp only [List.map_cons, List.map_nil, Function.comp_apply, norm_from_polar]
  have h255 : ((255 : U8) : ℕ) = 255 := rfl
  have hval : |(1 : ℝ) * (((255 : U8) : ℕ) / 255 : ℝ)| / 2 * 255 = 255 / 2 := by
    rw [h255]
    norm_num
  rw [hval]
  have hround : round ((255 : ℝ) / 2) = 128 := by
    rw [round_eq]
    norm_num
  simp only [roundToByte, hround]
  rfl

/-- Claim C9: `retrieve` decodes wave points with the store instance's
current frequency, not the frequency recorded inside the retrieved
`WavePacket`: for the payload `[255]` and the distinct positive frequencies
1 ≠ 2, a store opened with frequency 2 over a packet written (and recorded)
with frequency 1 returns `[128]`, different from the original payload, even
though decoding at frequency 1 recovers `[255]` exactly. -/
theorem claim9_retrieve_ignores_packet_frequency :
    (1 : ℝ) ≠ 2 ∧ (0 : ℝ) < 1 ∧ (0 : ℝ) < 2 ∧
    packetFreq1.frequency = 1 ∧ stFreq2.frequency = 2 ∧
    decode_from_waves 1 packetFreq1.waves = [255] ∧
    retrieve stFreq2 sigZero = .ok [128] ∧
    ([128] : List U8) ≠ [255] := by
  refine ⟨by norm_num, one_pos, two_pos, rfl, rfl, decode_encode 1 one_pos [255], ?_, by decide⟩
  have hlook : cacheLookup stFreq2.cache sigZero = some packetFreq1 := rfl
  show retrieve stFreq2 sigZero = .ok [128]
  rw [retrieve, hlook]
  show Except.ok (decode_from_waves 2 packetFreq1.waves) = Except.ok [128]
  rw [show packetFreq1.waves = encode_to_waves 1 [255] from rfl,
    decode_freq2_of_encode_freq1]

end Mem8

namespace Marine

/-- Claim C3 (code bug): on the empty sample sequence the Rust loop header
`for i in 1..gated.len()-1` evaluates `0usize - 1`, which panics (debug:
arithmetic overflow; release: the wrapped bound makes `gated[0]` index out of
bounds) — modelled as `none` — instead of returning an empty peak sequence
as the claim states.  On a single-element sequence the loop body never runs
and the peak sequence is empty, with no division by zero, as claimed. -/
theorem claim3_empty_and_singleton :
    (∀ m : MarineProcessor, process_samples m [] = none) ∧
    (∀ (m : MarineProcessor) (x : ℚ),
      (process_samples m [x]).map ScanState.peaks = some []) := by
  constructor
  · intro m
    simp [process_samples]
  · intro m x
    simp [process_samples]

/-- Claim C7: the summarizer reports `has_rhythm = true` iff the peak list
has at least 4 peaks and the variance of the consecutive inter-peak index
deltas is strictly less than `(0.2 · mean(deltas))²`; in particular fewer
than 4 peaks yield `has_rhythm = false`. -/
theorem claim7_has_rhythm (m : MarineProcessor) (peaks : List PeakInfo) :
    (extract_metadata m peaks).has_rhythm = true ↔
      4 ≤ peaks.length ∧
        listVariance (interPeakDeltas peaks)
          < (1/5 * listMean (interPeakDeltas peaks)) ^ 2 := by
  have hext : (extract_metadata m peaks).has_rhythm = detect_rhythm m peaks := rfl
  rw [hext, detect_rhythm]
  by_cases h : peaks.length < 4
  · rw [if_pos h]
    simp only [Bool.false_eq_true, false_iff]
    rintro ⟨hle, -⟩
    omega
  · rw [if_neg h]
    simp only [decide_eq_true_eq]
    rw [show (listMean (interPeakDeltas peaks) * (1/5)) ^ 2
        = (1/5 * listMean (interPeakDeltas peaks)) ^ 2 by ring]
    simp [Nat.not_lt.mp h]

theorem reflag_interval (t : ℚ) (p : PeakInfo) : (reflag t p).interval = p.interval := rfl

theorem map_interval_reflag (t : ℚ) (l : List PeakInfo) :
    (l.map (reflag t)).map PeakInfo.interval = l.map PeakInfo.interval := by
  rw [List.map_map]
  exact List.map_congr_left fun a _ => rfl

/-- The function `calculate_wonder_factor` reads only the recent peaks' intervals (and
their number). -/
theorem calculate_wonder_factor_eq (m m' : MarineProcessor)
    (hr : m'.recent_peaks.map PeakInfo.interval = m.recent_peaks.map PeakInfo.interval)
    (e j : ℚ) :
    calculate_wonder_factor m' e j = calculate_wonder_factor m e j := by
  have hlen : m'.recent_peaks.length = m.recent_peaks.length := by
    simpa using congrArg List.length hr
  simp only [calculate_wonder_factor, hlen, hr]

/-- The function `calculate_salience` is unchanged by any modification of the processor
that preserves the weights and the recent peaks' intervals. -/
theorem calculate_salience_eq (m m' : MarineProcessor)
    (hw : m'.weights = m.weights)
    (hr : m'.recent_peaks.map PeakInfo.interval = m.recent_peaks.map PeakInfo.interval)
    (e tj aj hs : ℚ) :
    calculate_salience m' e tj aj hs = calculate_salience m e tj aj hs := by
  simp only [calculate_salience, hw, calculate_wonder_factor_eq m m' hr]

/-- The transport `adjustProc` written as an explicit structure literal. -/
theorem adjustProc_def (t : ℚ) (m : MarineProcessor) :
    adjustProc t m
      = { clip_threshold := m.clip_threshold, grid_tick_rate := m.grid_tick_rate,
          timing_alpha := m.timing_alpha, timing_value := m.timing_value,
          amplitude_alpha := m.amplitude_alpha, amplitude_value := m.amplitude_value,
          recent_peaks := m.recent_peaks.map (reflag t), weights := m.weights,
          wonder_threshold := t } := rfl

/-- Transporting the processor along a threshold change commutes with the
loop body: the produced peak only changes its wonder flag, and the updated
processor is the transported updated processor. -/
theorem makePeak_adjust (t : ℚ) (m : MarineProcessor) (last i : ℕ) (xi : ℚ) :
    makePeak (adjustProc t m) last i xi
      = (reflag t (makePeak m last i xi).1, adjustProc t (makePeak m last i xi).2) := by
  simp only [makePeak, adjustProc_def, reflag, calculate_salience,
    calculate_wonder_factor, calculate_harmonic_alignment,
    map_interval_reflag, List.length_map]

/-- One loop iteration commutes with the threshold transport of the whole
scan state. -/
theorem scanStep_adjust (t : ℚ) (gated : List ℚ) (s : ScanState) (i : ℕ) :
    scanStep gated ⟨adjustProc t s.proc, s.last_peak_index, s.peaks.map (reflag t)⟩ i
      = ⟨adjustProc t (scanStep gated s i).proc,
         (scanStep gated s i).last_peak_index,
         (scanStep gated s i).peaks.map (reflag t)⟩ := by
  by_cases hc : gated.getD (i - 1) 0 < gated.getD i 0 ∧
      gated.getD (i + 1) 0 < gated.getD i 0 ∧ gated.getD i 0 ≠ 0
  · simp only [scanStep, if_pos hc, makePeak_adjust]
    simp only [adjustProc_def, apply_ite (List.map (reflag t)), List.map_tail,
      List.map_append, List.map_cons, List.map_nil,
      List.length_append, List.length_map, List.length_cons, List.length_nil]
  · simp only [scanStep, if_neg hc]

/-- The whole loop commutes with the threshold transport. -/
theorem scanFold_adjust (t : ℚ) (gated : List ℚ) (idxs : List ℕ) (s : ScanState) :
    idxs.foldl (scanStep gated) ⟨adjustProc t s.proc, s.last_peak_index, s.peaks.map (reflag t)⟩
      = ⟨adjustProc t (idxs.foldl (scanStep gated) s).proc,
         (idxs.foldl (scanStep gated) s).last_peak_index,
         (idxs.foldl (scanStep gated) s).peaks.map (reflag t)⟩ := by
  induction idxs generalizing s with
  | nil => rfl
  | cons j js ih =>
    simp only [List.foldl_cons]
    rw [scanStep_adjust t gated s j]
    exact ih (scanStep gated s j)

/-- Running `process_samples` on a freshly initialized processor with
`wonder_threshold` set to `t` yields, peak for peak, the same scan as the
unmodified processor, with every wonder flag re-evaluated against `t`. -/
theorem process_samples_threshold (m : MarineProcessor) (hfresh : m.recent_peaks = [])
    (t : ℚ) (samples : List ℚ) :
    process_samples { m with wonder_threshold := t } samples
      = (process_samples m samples).map fun s =>
          ⟨adjustProc t s.proc, s.last_peak_index, s.peaks.map (reflag t)⟩ := by
  have hadj : adjustProc t m = { m with wonder_threshold := t } := by
    rw [adjustProc_def, hfresh]
    simp [hfresh]
  simp only [process_samples]
  by_cases h0 : samples.length = 0
  · simp [h0]
  · rw [if_neg h0, if_neg h0, Option.map_some']
    rw [show (⟨{ m with wonder_threshold := t }, 0, []⟩ : ScanState)
        = ⟨adjustProc t (⟨m, 0, []⟩ : ScanState).proc, (⟨m, 0, []⟩ : ScanState).last_peak_index,
           (⟨m, 0, []⟩ : ScanState).peaks.map (reflag t)⟩ by rw [hadj]; rfl]
    rw [scanFold_adjust]

/-- Every peak emitted by a run carries the wonder flag its salience earns
against that run's threshold; transported peaks count exactly the peaks
whose salience exceeds the new threshold. -/
theorem wonder_count_reflag (t : ℚ) (l : List PeakInfo) :
    ((l.map (reflag t)).filter fun p => p.has_wonder).length
      = l.countP fun p => decide (t < p.salience) := by
  rw [← List.countP_eq_length_filter, List.countP_map]
  rfl

/-- Claim C8: for a fixed sample sequence processed by a freshly initialized
detector — identical configuration except `wonder_threshold` — raising the
threshold cannot increase the number of peaks flagged high-salience: if
`t1 ≤ t2` the summarizer's `wonder_count` under `t2` is at most the one
under `t1`. -/
theorem claim8_wonder_count_antitone (m : MarineProcessor)
    (hfresh : m.recent_peaks = []) (t1 t2 : ℚ) (hle : t1 ≤ t2)
    (samples : List ℚ) (s1 s2 : ScanState)
    (h1 : process_samples { m with wonder_threshold := t1 } samples = some s1)
    (h2 : process_samples { m with wonder_threshold := t2 } samples = some s2) :
    (extract_metadata s2.proc s2.peaks).wonder_count
      ≤ (extract_metadata s1.proc s1.peaks).wonder_count := by
  rw [process_samples_threshold m hfresh t1 samples] at h1
  rw [process_samples_threshold m hfresh t2 samples] at h2
  cases h0 : process_samples m samples with
  | none => rw [h0] at h1; simp at h1
  | some s0 =>
    rw [h0, Option.map_some', Option.some_inj] at h1 h2
    have e1 : s1.peaks = s0.peaks.map (reflag t1) := by rw [← h1]
    have e2 : s2.peaks = s0.peaks.map (reflag t2) := by rw [← h2]
    show (s2.peaks.filter fun p => p.has_wonder).length
      ≤ (s1.peaks.filter fun p => p.has_wonder).length
    rw [e1, e2, wonder_count_reflag, wonder_count_reflag]
    exact List.countP_mono_left fun p _ hp => by
      simp only [decide_eq_true_eq] at hp ⊢
      exact lt_of_le_of_lt hle hp

/-- Witness for claim C8: the fresh default processor, thresholds 0 ≤ 1, and
the one-sample sequence `[0]` (whose scan has no interior indices). -/
theorem claim8_witness :
    MarineProcessor.new.recent_peaks = [] ∧ (0 : ℚ) ≤ 1 ∧
    process_samples { MarineProcessor.new with wonder_threshold := 0 } [0]
      = some ⟨{ MarineProcessor.new with wonder_threshold := 0 }, 0, []⟩ ∧
    process_samples { MarineProcessor.new with wonder_threshold := 1 } [0]
      = some ⟨{ MarineProcessor.new with wonder_threshold := 1 }, 0, []⟩ ∧
    (extract_metadata ({ MarineProcessor.new with wonder_threshold := 1 }) []).wonder_count
      ≤ (extract_metadata ({ MarineProcessor.new with wonder_threshold := 0 }) []).wonder_count :=
  ⟨rfl, by norm_num,
   rfl,
   rfl,
   claim8_wonder_count_antitone MarineProcessor.new rfl 0 1 (by norm_num) [0]
     ⟨{ MarineProcessor.new with wonder_threshold := 0 }, 0, []⟩
     ⟨{ MarineProcessor.new with wonder_threshold := 1 }, 0, []⟩
     rfl rfl⟩

end Marine
